import Mathlib

/-!
# Verification of the duplicate-block detector (`scripts/find_dups.py`)

A shallow embedding of the core algorithm of `find_dups.py`: line
normalization, window hashing, pair expansion, deduplication and the final
sort.  Python `int` offsets are modelled as `Nat` (all offsets in the program
are non-negative); the SHA-1 digest of a window is modelled by the window's
joined text itself (the code treats digest equality as content equality, so
an injective digest is the intended semantics).
-/

namespace FindDups

/-- ASCII whitespace recognised by Python's `str.strip` / `\s` on the inputs
this tool processes (`splitlines` output never contains line separators). -/
def isPySpace (c : Char) : Bool :=
  c == ' ' || c == '\t' || c == '\n' || c == '\r' || c == '\x0b' || c == '\x0c'

/-- A character matching the regex class `[A-Za-z0-9_]`. -/
def isWordChar (c : Char) : Bool :=
  c.isAlphanum || c == '_'

/-- Collapse every run of whitespace to a single space, as
`re.sub(r"\s+", " ", ·)` does; the flag records whether the previous
character was whitespace. -/
def collapseWs : Bool → List Char → List Char
  | _, [] => []
  | prevWs, c :: cs =>
    if isPySpace c then
      if prevWs then collapseWs true cs else ' ' :: collapseWs true cs
    else c :: collapseWs false cs

/-- Python `str.strip()`: drop leading and trailing whitespace. -/
def stripWs (l : List Char) : List Char :=
  ((l.dropWhile isPySpace).reverse.dropWhile isPySpace).reverse

/-- `normalize_line` of the source: `re.sub(r"\s+", " ", line.strip())`. -/
def normalize_line (s : String) : String :=
  String.mk (collapseWs false (stripWs s.data))

/-- `is_significant` of the source: `bool(re.search(r"[A-Za-z0-9_]", line))`. -/
def is_significant (s : String) : Bool :=
  s.data.any isWordChar

/-- The per-file normalization performed by `load_files`
(`norms = [normalize_line(line) for line in lines]`), keeping the path. -/
def loadNorms (files : List (String × List String)) : List (String × List String) :=
  files.map (fun f => (f.1, f.2.map normalize_line))

/-- The result tuple `(length, a_idx, start_a, b_idx, start_b)` appended to
`matches` by `find_duplicates`. -/
structure MatchSpan where
  length : Nat
  aIdx : Nat
  startA : Nat
  bIdx : Nat
  startB : Nat
deriving DecidableEq

/-- The digest of a window: the code hashes
`"\n".join(norms[start : start + min_lines])` with SHA-1 and buckets by the
hex digest; digest equality stands for equality of the joined text, so the
digest is modelled by the joined text itself. -/
def windowDigest (w : List String) : String :=
  String.intercalate "\n" w

/-- `windows.setdefault(digest, []).append((file_idx, start))` over an
insertion-ordered association list, which is exactly the iteration order of a
Python `dict`. -/
def addOcc (buckets : List (String × List (Nat × Nat))) (d : String)
    (occ : Nat × Nat) : List (String × List (Nat × Nat)) :=
  match buckets with
  | [] => [(d, [occ])]
  | (d', occs) :: rest =>
    if d' = d then (d', occs ++ [occ]) :: rest else (d', occs) :: addOcc rest d occ

/-- Number of significant lines in `norms[start : start + ml]`.  The source
computes this value with a prefix-sum array
(`sig_prefix[start + min_lines] - sig_prefix[start]`), which equals the
direct count over the window. -/
def sigCount (norms : List String) (start ml : Nat) : Nat :=
  ((norms.drop start).take ml).countP (fun l => is_significant l)

/-- The window-hashing loop body for one file: every start offset in
`range(0, total - min_lines + 1)` whose window has at least `min_significant`
significant lines contributes its `(file_idx, start)` occurrence. -/
def fileWindows (bks : List (String × List (Nat × Nat))) (fileIdx : Nat)
    (norms : List String) (ml ms : Nat) : List (String × List (Nat × Nat)) :=
  if norms.length < ml then bks
  else
    (List.range (norms.length - ml + 1)).foldl
      (fun b start =>
        if sigCount norms start ml < ms then b
        else addOcc b (windowDigest ((norms.drop start).take ml)) (fileIdx, start))
      bks

/-- `for file_idx, (_, norms) in enumerate(file_lines)`. -/
def buildWindowsAux (ml ms : Nat) :
    Nat → List (String × List String) → List (String × List (Nat × Nat)) →
    List (String × List (Nat × Nat))
  | _, [], bks => bks
  | idx, f :: rest, bks => buildWindowsAux ml ms (idx + 1) rest (fileWindows bks idx f.2 ml ms)

/-- The `windows` dictionary built by the first phase of `find_duplicates`. -/
def buildWindows (fileLines : List (String × List String)) (ml ms : Nat) :
    List (String × List (Nat × Nat)) :=
  buildWindowsAux ml ms 0 fileLines []

/-- `_, a_lines = file_lines[a_idx]` (all indices that occur are in range). -/
def linesAt (fileLines : List (String × List String)) (i : Nat) : List String :=
  (fileLines.getD i ("", [])).2

/-- `a_lines[i] == b_lines[j]`, guarded by the in-bounds checks of the two
expansion loops (false on any out-of-range index). -/
def lineEq (aLines : List String) (i : Nat) (bLines : List String) (j : Nat) : Bool :=
  match aLines.get? i, bLines.get? j with
  | some x, some y => x == y
  | _, _ => false

/-- The backward expansion loop: while both starts are positive and the
preceding lines agree, decrement both. -/
def expandBack (aLines bLines : List String) : Nat → Nat → Nat × Nat
  | sa + 1, sb + 1 =>
    if lineEq aLines sa bLines sb then expandBack aLines bLines sa sb
    else (sa + 1, sb + 1)
  | sa, sb => (sa, sb)

/-- The forward expansion loop, with explicit fuel: while both ends are in
range and the lines at the ends agree, increment both. -/
def expandFwdAux (aLines bLines : List String) : Nat → Nat → Nat → Nat × Nat
  | 0, ea, eb => (ea, eb)
  | fuel + 1, ea, eb =>
    if lineEq aLines ea bLines eb then expandFwdAux aLines bLines fuel (ea + 1) (eb + 1)
    else (ea, eb)

/-- The forward expansion loop: while both ends are in range and the lines
at the ends agree, increment both.  The fuel `aLines.length - ea` is exactly
enough: the loop guard forces `ea < aLines.length` on every iteration, so
the fuel never runs out before the guard fails. -/
def expandFwd (aLines bLines : List String) (ea eb : Nat) : Nat × Nat :=
  expandFwdAux aLines bLines (aLines.length - ea) ea eb

/-- `occs = occs[:max_pairs_per_hash]` when the bucket is over the cap. -/
def capOccs (mp : Nat) (occs : List (Nat × Nat)) : List (Nat × Nat) :=
  if occs.length > mp then occs.take mp else occs

/-- The ordered pairs `(occs[i], occs[j])` for `i < j`, in the order of the
two nested `for` loops. -/
def pairsOf {α : Type} : List α → List (α × α)
  | [] => []
  | x :: xs => (xs.map (fun y => (x, y))) ++ pairsOf xs

/-- The span computed for one surviving pair: expand backward from the seed
starts, forward from the seed ends, and record
`(length, a_idx, start_a, b_idx, start_b)` with `length = end_a - start_a`. -/
def spanOfPair (fl : List (String × List String)) (ml : Nat)
    (pr : (Nat × Nat) × (Nat × Nat)) : MatchSpan :=
  let aLines := linesAt fl pr.1.1
  let bLines := linesAt fl pr.2.1
  let sp := expandBack aLines bLines pr.1.2 pr.2.2
  let ep := expandFwd aLines bLines (pr.1.2 + ml) (pr.2.2 + ml)
  ⟨ep.1 - sp.1, pr.1.1, sp.1, pr.2.1, sp.2⟩

/-- The body of the pairwise loop of `find_duplicates`: the same-file skips,
the expansion, the `seen`-set deduplication and the append to `matches`.
The state is `(matches, seen)`; the `seen` key
`(a_idx, start_a, b_idx, start_b, length)` carries the same fields as the
span, so `seen` is modelled as a list of spans. -/
def processPair (fl : List (String × List String)) (ml : Nat) (inc : Bool)
    (st : List MatchSpan × List MatchSpan) (pr : (Nat × Nat) × (Nat × Nat)) :
    List MatchSpan × List MatchSpan :=
  if !inc && pr.1.1 == pr.2.1 then st
  else if pr.1.1 == pr.2.1 && Nat.dist pr.1.2 pr.2.2 < ml then st
  else
    let span := spanOfPair fl ml pr
    if span ∈ st.2 then st
    else (st.1 ++ [span], st.2 ++ [span])

/-- One bucket of the second phase: buckets with fewer than two occurrences
are skipped, the occurrence list is capped, and every `i < j` pair is
processed. -/
def processBucket (fl : List (String × List String)) (ml mp : Nat) (inc : Bool)
    (st : List MatchSpan × List MatchSpan) (bucket : String × List (Nat × Nat)) :
    List MatchSpan × List MatchSpan :=
  if bucket.2.length < 2 then st
  else (pairsOf (capOccs mp bucket.2)).foldl (processPair fl ml inc) st

/-- The `matches` list of `find_duplicates` before the final sort, in the
order the spans were appended. -/
def matchesPre (fl : List (String × List String)) (ml ms mp : Nat) (inc : Bool) :
    List MatchSpan :=
  ((buildWindows fl ml ms).foldl (processBucket fl ml mp inc) ([], [])).1

/-- `s` is greater than or equal to `t` in the lexicographic order Python
uses to compare the result tuples `(length, a_idx, start_a, b_idx, start_b)`;
`matches.sort(reverse=True)` sorts by this relation. -/
abbrev spanGE (s t : MatchSpan) : Prop :=
  t.length < s.length ∨ (t.length = s.length ∧
    (t.aIdx < s.aIdx ∨ (t.aIdx = s.aIdx ∧
      (t.startA < s.startA ∨ (t.startA = s.startA ∧
        (t.bIdx < s.bIdx ∨ (t.bIdx = s.bIdx ∧ t.startB ≤ s.startB)))))))

instance : IsTotal MatchSpan spanGE :=
  ⟨by intro a b; unfold spanGE; omega⟩

instance : IsTrans MatchSpan spanGE :=
  ⟨by intro a b c hab hbc; unfold spanGE at *; omega⟩

/-- `find_duplicates`: build the window buckets, process every bucket, then
`matches.sort(reverse=True)`.  The spans in `matches` are pairwise distinct
(the `seen` set deduplicates on exactly the span's fields), and Python's
stable descending sort on distinct keys coincides with insertion sort by the
total order `spanGE`. -/
def find_duplicates (fl : List (String × List String)) (ml ms mp : Nat)
    (inc : Bool) : List MatchSpan :=
  List.insertionSort spanGE (matchesPre fl ml ms mp inc)

/-! ## Auxiliary predicates used by the invariant proofs -/

/-- Strict ordering of window occurrences by `(file-index, start)`: the
order in which the hashing phase discovers them. -/
def occLt (o p : Nat × Nat) : Prop :=
  o.1 < p.1 ∨ (o.1 = p.1 ∧ o.2 < p.2)

/-- A window occurrence recorded by the hashing phase: its window lies
inside its file and passed the significance filter. -/
def occValid (fl : List (String × List String)) (ml ms : Nat) (occ : Nat × Nat) : Prop :=
  occ.2 + ml ≤ (linesAt fl occ.1).length ∧ ms ≤ sigCount (linesAt fl occ.1) occ.2 ml

/-- Every occurrence in every bucket satisfies `P`. -/
def OccsInv (P : Nat × Nat → Prop) (bks : List (String × List (Nat × Nat))) : Prop :=
  ∀ b ∈ bks, ∀ occ ∈ b.2, P occ

/-- Every bucket's occurrence list is strictly increasing in discovery
order. -/
def SortedBuckets (bks : List (String × List (Nat × Nat))) : Prop :=
  ∀ b ∈ bks, List.Pairwise occLt b.2

/-! ## Concrete corpora used by the scenario claims -/

/-- The two-file corpus of the spec's first concrete scenario, after the
normalization `load_files` applies. -/
def corpusC1 : List (String × List String) :=
  loadNorms
    [("A", ["fn f() \x7b", "  let x = 1;", "  return x;", "\x7d"]),
     ("B", ["", "fn f() \x7b", "  let x = 1;", "  return x;", "\x7d"])]

/-- A one-file corpus whose single significant line repeats five times. -/
def corpusRep : List (String × List String) :=
  [("f", ["a", "a", "a", "a", "a"])]

/-- Two files sharing two distinct duplicated blocks of equal length,
separated by differing middle lines. -/
def corpusC5 : List (String × List String) :=
  [("A", ["a", "b", "zzz", "c", "d"]), ("B", ["a", "b", "www", "c", "d"])]

/-! ## Basic lemmas -/

theorem capOccs_of_le {mp : Nat} {occs : List (Nat × Nat)}
    (h : occs.length ≤ mp) : capOccs mp occs = occs := by
  unfold capOccs
  rw [if_neg]
  omega

theorem capOccs_eq_take {mp : Nat} {occs : List (Nat × Nat)}
    (h : mp < occs.length) : capOccs mp occs = occs.take mp := by
  unfold capOccs
  rw [if_pos]
  omega

theorem capOccs_sublist (mp : Nat) (occs : List (Nat × Nat)) :
    (capOccs mp occs).Sublist occs := by
  unfold capOccs
  split
  · exact List.take_sublist mp occs
  · exact List.Sublist.refl occs

theorem processBucket_cap_congr (fl : List (String × List String)) (ml : Nat)
    (mp mp' : Nat) (inc : Bool) (st : List MatchSpan × List MatchSpan)
    (b : String × List (Nat × Nat)) (h : b.2.length ≤ mp) (h' : b.2.length ≤ mp') :
    processBucket fl ml mp inc st b = processBucket fl ml mp' inc st b := by
  unfold processBucket
  rw [capOccs_of_le h, capOccs_of_le h']

theorem matchesPre_cap_congr (fl : List (String × List String)) (ml ms : Nat)
    (mp mp' : Nat) (inc : Bool)
    (h : ∀ b ∈ buildWindows fl ml ms, b.2.length ≤ mp)
    (h' : ∀ b ∈ buildWindows fl ml ms, b.2.length ≤ mp') :
    matchesPre fl ml ms mp inc = matchesPre fl ml ms mp' inc := by
  unfold matchesPre
  rw [List.foldl_ext (processBucket fl ml mp inc) (processBucket fl ml mp' inc) _
    (fun st b hb => processBucket_cap_congr fl ml mp mp' inc st b (h b hb) (h' b hb))]

/-! ## Lemmas about `lineEq` and the two expansion loops -/

theorem lineEq_bounds {aL bL : List String} {i j : Nat}
    (h : lineEq aL i bL j = true) : i < aL.length ∧ j < bL.length := by
  unfold lineEq at h
  cases ha : aL.get? i with
  | none => rw [ha] at h; cases hb : bL.get? j <;> simp [hb] at h
  | some x =>
    cases hb : bL.get? j with
    | none => rw [ha, hb] at h; simp at h
    | some y =>
      exact ⟨List.get?_eq_some.mp ha |>.1, List.get?_eq_some.mp hb |>.1⟩

theorem lineEq_false_of_left_le {aL bL : List String} {i j : Nat}
    (h : aL.length ≤ i) : lineEq aL i bL j = false := by
  cases hq : lineEq aL i bL j
  · rfl
  · exact absurd (lineEq_bounds hq).1 (by omega)

theorem ne_of_lineEq_false {aL bL : List String} {i j : Nat}
    (h : lineEq aL i bL j = false) (hi : i < aL.length) (hj : j < bL.length) :
    aL.getD i "" ≠ bL.getD j "" := by
  have hx : aL.get? i = some (aL.get ⟨i, hi⟩) := List.get?_eq_get hi
  have hy : bL.get? j = some (bL.get ⟨j, hj⟩) := List.get?_eq_get hj
  unfold lineEq at h
  rw [hx, hy] at h
  have hne : aL.get ⟨i, hi⟩ ≠ bL.get ⟨j, hj⟩ := by
    intro he
    rw [he] at h
    simp at h
  rw [List.getD_eq_getElem?_getD, List.getD_eq_getElem?_getD,
    ← List.get?_eq_getElem?, ← List.get?_eq_getElem?, hx, hy]
  simpa using hne

theorem expandBack_spec (aL bL : List String) :
    ∀ sa sb : Nat, ∃ k, k ≤ sa ∧ k ≤ sb ∧
      expandBack aL bL sa sb = (sa - k, sb - k) ∧
      (0 < sa - k → 0 < sb - k →
        lineEq aL (sa - k - 1) bL (sb - k - 1) = false) := by
  intro sa
  induction sa with
  | zero =>
    intro sb
    exact ⟨0, Nat.le_refl _, Nat.zero_le _, rfl, fun h _ => absurd h (by omega)⟩
  | succ sa ih =>
    intro sb
    cases sb with
    | zero =>
      exact ⟨0, Nat.zero_le _, Nat.le_refl _, rfl, fun _ h => absurd h (by omega)⟩
    | succ sb =>
      by_cases h : lineEq aL sa bL sb = true
      · obtain ⟨k, hk1, hk2, heq, hstop⟩ := ih sb
        refine ⟨k + 1, by omega, by omega, ?_, ?_⟩
        · show expandBack aL bL (sa + 1) (sb + 1) = _
          rw [show expandBack aL bL (sa + 1) (sb + 1) = expandBack aL bL sa sb from by
            simp [expandBack, h]]
          rw [heq]
          have e1 : sa - k = sa + 1 - (k + 1) := by omega
          have e2 : sb - k = sb + 1 - (k + 1) := by omega
          rw [e1, e2]
        · have e1 : sa + 1 - (k + 1) = sa - k := by omega
          have e2 : sb + 1 - (k + 1) = sb - k := by omega
          rw [e1, e2]
          exact hstop
      · rw [Bool.not_eq_true] at h
        refine ⟨0, Nat.zero_le _, Nat.zero_le _, ?_, ?_⟩
        · simp [expandBack, h]
        · intro _ _
          simpa using h

theorem expandFwdAux_spec (aL bL : List String) :
    ∀ (fuel ea eb : Nat), aL.length ≤ ea + fuel →
      ∃ m, expandFwdAux aL bL fuel ea eb = (ea + m, eb + m) ∧
        lineEq aL (ea + m) bL (eb + m) = false := by
  intro fuel
  induction fuel with
  | zero =>
    intro ea eb h
    exact ⟨0, rfl, lineEq_false_of_left_le (by omega)⟩
  | succ fuel ih =>
    intro ea eb h
    by_cases hl : lineEq aL ea bL eb = true
    · obtain ⟨m, heq, hstop⟩ := ih (ea + 1) (eb + 1) (by omega)
      refine ⟨m + 1, ?_, ?_⟩
      · rw [show expandFwdAux aL bL (fuel + 1) ea eb =
            expandFwdAux aL bL fuel (ea + 1) (eb + 1) from by simp [expandFwdAux, hl]]
        rw [heq]
        have e1 : ea + 1 + m = ea + (m + 1) := by omega
        have e2 : eb + 1 + m = eb + (m + 1) := by omega
        rw [e1, e2]
      · have e1 : ea + 1 + m = ea + (m + 1) := by omega
        have e2 : eb + 1 + m = eb + (m + 1) := by omega
        rw [e1, e2] at hstop
        exact hstop
    · rw [Bool.not_eq_true] at hl
      exact ⟨0, by simp [expandFwdAux, hl], by simpa using hl⟩

theorem expandFwd_spec (aL bL : List String) (ea eb : Nat) :
    ∃ m, expandFwd aL bL ea eb = (ea + m, eb + m) ∧
      lineEq aL (ea + m) bL (eb + m) = false :=
  expandFwdAux_spec aL bL (aL.length - ea) ea eb (by omega)

/-! ## Generic fold invariants and pair lemmas -/

theorem foldl_inv {α β : Type _} {Inv : α → Prop} {f : α → β → α} {l : List β}
    {init : α} (hstep : ∀ acc b, b ∈ l → Inv acc → Inv (f acc b)) (h0 : Inv init) :
    Inv (l.foldl f init) := by
  induction l generalizing init with
  | nil => exact h0
  | cons x xs ih =>
    exact ih (fun acc b hb => hstep acc b (List.mem_cons_of_mem _ hb))
      (hstep init x (List.mem_cons_self _ _) h0)

theorem mem_pairsOf {α : Type} {l : List α} {pr : α × α} (h : pr ∈ pairsOf l) :
    pr.1 ∈ l ∧ pr.2 ∈ l := by
  induction l with
  | nil => simp [pairsOf] at h
  | cons x xs ih =>
    simp only [pairsOf, List.mem_append, List.mem_map] at h
    rcases h with ⟨y, hy, hpr⟩ | h
    · subst hpr
      exact ⟨List.mem_cons_self _ _, List.mem_cons_of_mem _ hy⟩
    · obtain ⟨h1, h2⟩ := ih h
      exact ⟨List.mem_cons_of_mem _ h1, List.mem_cons_of_mem _ h2⟩

theorem pairsOf_rel {α : Type} {R : α → α → Prop} {l : List α}
    (hl : List.Pairwise R l) {pr : α × α} (h : pr ∈ pairsOf l) : R pr.1 pr.2 := by
  induction l with
  | nil => simp [pairsOf] at h
  | cons x xs ih =>
    simp only [pairsOf, List.mem_append, List.mem_map] at h
    rcases h with ⟨y, hy, hpr⟩ | h
    · subst hpr
      exact (List.pairwise_cons.mp hl).1 y hy
    · exact ih (List.pairwise_cons.mp hl).2 h

theorem occLt_trans {o p q : Nat × Nat} (h1 : occLt o p) (h2 : occLt p q) :
    occLt o q := by
  unfold occLt at *
  omega

/-! ## Invariants of the window-hashing phase -/

theorem occsInv_mono {P Q : Nat × Nat → Prop} {bks : List (String × List (Nat × Nat))}
    (h : OccsInv P bks) (hPQ : ∀ o, P o → Q o) : OccsInv Q bks :=
  fun b hb occ hocc => hPQ occ (h b hb occ hocc)

theorem occsInv_addOcc {P : Nat × Nat → Prop} {bks : List (String × List (Nat × Nat))}
    {d : String} {o : Nat × Nat} (h : OccsInv P bks) (ho : P o) :
    OccsInv P (addOcc bks d o) := by
  induction bks with
  | nil =>
    intro b hb occ hocc
    simp only [addOcc, List.mem_singleton] at hb
    subst hb
    simp only [List.mem_singleton] at hocc
    subst hocc
    exact ho
  | cons hd tl ih =>
    obtain ⟨d', occs⟩ := hd
    intro b hb occ hocc
    unfold addOcc at hb
    by_cases hdd : d' = d
    · rw [if_pos hdd] at hb
      rcases List.mem_cons.mp hb with hb | hb
      · subst hb
        simp only [List.mem_append, List.mem_singleton] at hocc
        rcases hocc with hocc | hocc
        · exact h (d', occs) (List.mem_cons_self _ _) occ hocc
        · subst hocc; exact ho
      · exact h b (List.mem_cons_of_mem _ hb) occ hocc
    · rw [if_neg hdd] at hb
      rcases List.mem_cons.mp hb with hb | hb
      · subst hb
        exact h (d', occs) (List.mem_cons_self _ _) occ hocc
      · exact ih (fun b' hb' occ' hocc' => h b' (List.mem_cons_of_mem _ hb') occ' hocc')
          b hb occ hocc

theorem sorted_addOcc {bks : List (String × List (Nat × Nat))} {d : String}
    {o : Nat × Nat} (hs : SortedBuckets bks) (hb : OccsInv (fun p => occLt p o) bks) :
    SortedBuckets (addOcc bks d o) := by
  induction bks with
  | nil =>
    intro b hbm
    simp only [addOcc, List.mem_singleton] at hbm
    subst hbm
    simp
  | cons hd tl ih =>
    obtain ⟨d', occs⟩ := hd
    intro b hbm
    unfold addOcc at hbm
    by_cases hdd : d' = d
    · rw [if_pos hdd] at hbm
      rcases List.mem_cons.mp hbm with hbm | hbm
      · subst hbm
        refine List.pairwise_append.mpr ⟨hs (d', occs) (List.mem_cons_self _ _), by simp, ?_⟩
        intro a ha b' hb'
        simp only [List.mem_singleton] at hb'
        subst hb'
        exact hb (d', occs) (List.mem_cons_self _ _) a ha
      · exact hs b (List.mem_cons_of_mem _ hbm)
    · rw [if_neg hdd] at hbm
      rcases List.mem_cons.mp hbm with hbm | hbm
      · subst hbm
        exact hs (d', occs) (List.mem_cons_self _ _)
      · exact ih (fun b' hb' => hs b' (List.mem_cons_of_mem _ hb'))
          (fun b' hb' occ' hocc' => hb b' (List.mem_cons_of_mem _ hb') occ' hocc') b hbm

/-- Folding the per-file window loop over `range n` preserves bucket
sortedness and pushes the discovery-order bound from `(idx, 0)` to
`(idx, n)`. -/
theorem fileWindows_fold_sorted (idx : Nat) (norms : List String) (ml ms : Nat) :
    ∀ (n : Nat) (bks : List (String × List (Nat × Nat))),
      SortedBuckets bks → OccsInv (fun p => occLt p (idx, 0)) bks →
      SortedBuckets ((List.range n).foldl
          (fun b start =>
            if sigCount norms start ml < ms then b
            else addOcc b (windowDigest ((norms.drop start).take ml)) (idx, start)) bks) ∧
      OccsInv (fun p => occLt p (idx, n)) ((List.range n).foldl
          (fun b start =>
            if sigCount norms start ml < ms then b
            else addOcc b (windowDigest ((norms.drop start).take ml)) (idx, start)) bks) := by
  intro n
  induction n with
  | zero => intro bks h1 h2; exact ⟨h1, h2⟩
  | succ n ih =>
    intro bks h1 h2
    rw [List.range_succ, List.foldl_append]
    obtain ⟨hs, hbnd⟩ := ih bks h1 h2
    simp only [List.foldl_cons, List.foldl_nil]
    by_cases hsig : sigCount norms n ml < ms
    · rw [if_pos hsig]
      exact ⟨hs, occsInv_mono hbnd (fun o ho => occLt_trans ho (by unfold occLt; omega))⟩
    · rw [if_neg hsig]
      refine ⟨sorted_addOcc hs hbnd, ?_⟩
      exact occsInv_addOcc
        (occsInv_mono hbnd (fun o ho => occLt_trans ho (by unfold occLt; omega)))
        (by unfold occLt; omega)

theorem fileWindows_sorted {bks : List (String × List (Nat × Nat))} (idx : Nat)
    (norms : List String) (ml ms : Nat) (hs : SortedBuckets bks)
    (hb : OccsInv (fun p => p.1 < idx) bks) :
    SortedBuckets (fileWindows bks idx norms ml ms) ∧
    OccsInv (fun p => p.1 < idx + 1) (fileWindows bks idx norms ml ms) := by
  have hb0 : OccsInv (fun p => occLt p (idx, 0)) bks :=
    occsInv_mono hb (fun o ho => by unfold occLt; omega)
  unfold fileWindows
  split
  · exact ⟨hs, occsInv_mono hb (fun o ho => by omega)⟩
  · obtain ⟨h1, h2⟩ := fileWindows_fold_sorted idx norms ml ms
      (norms.length - ml + 1) bks hs hb0
    exact ⟨h1, occsInv_mono h2 (fun o ho => by unfold occLt at ho; omega)⟩

theorem buildWindowsAux_sorted (ml ms : Nat) :
    ∀ (rest : List (String × List String)) (idx : Nat)
      (bks : List (String × List (Nat × Nat))),
      SortedBuckets bks → OccsInv (fun p => p.1 < idx) bks →
      SortedBuckets (buildWindowsAux ml ms idx rest bks) := by
  intro rest
  induction rest with
  | nil => intro idx bks h1 _; exact h1
  | cons f tl ih =>
    intro idx bks h1 h2
    obtain ⟨hs, hb⟩ := fileWindows_sorted idx f.2 ml ms h1 h2
    exact ih (idx + 1) _ hs hb

/-- Every bucket built by the hashing phase lists its occurrences in strictly
increasing `(file-index, start)` order. -/
theorem buildWindows_sorted (fl : List (String × List String)) (ml ms : Nat) :
    SortedBuckets (buildWindows fl ml ms) :=
  buildWindowsAux_sorted ml ms fl 0 [] (by intro b hb; simp at hb)
    (by intro b hb; simp at hb)

/-- Folding the per-file window loop only adds occurrences that lie inside
`norms` and passed the significance filter. -/
theorem fileWindows_occsInv {fl : List (String × List String)} {ml ms : Nat}
    {bks : List (String × List (Nat × Nat))} (idx : Nat) (norms : List String)
    (hn : linesAt fl idx = norms) (h : OccsInv (occValid fl ml ms) bks) :
    OccsInv (occValid fl ml ms) (fileWindows bks idx norms ml ms) := by
  unfold fileWindows
  split
  · exact h
  · rename_i hml
    refine foldl_inv ?_ h
    intro acc start hstart hacc
    by_cases hsig : sigCount norms start ml < ms
    · rw [if_pos hsig]
      exact hacc
    · rw [if_neg hsig]
      refine occsInv_addOcc hacc ?_
      have hlt : start < norms.length - ml + 1 := List.mem_range.mp hstart
      constructor
      · show start + ml ≤ (linesAt fl idx).length
        rw [hn]
        omega
      · show ms ≤ sigCount (linesAt fl idx) start ml
        rw [hn]
        omega

theorem buildWindowsAux_occsInv {fl : List (String × List String)} (ml ms : Nat) :
    ∀ (rest : List (String × List String)) (idx : Nat)
      (bks : List (String × List (Nat × Nat))),
      (∀ k f, rest.get? k = some f → linesAt fl (idx + k) = f.2) →
      OccsInv (occValid fl ml ms) bks →
      OccsInv (occValid fl ml ms) (buildWindowsAux ml ms idx rest bks) := by
  intro rest
  induction rest with
  | nil => intro idx bks _ h; exact h
  | cons f tl ih =>
    intro idx bks hrest h
    refine ih (idx + 1) _ ?_ ?_
    · intro k f' hk
      have := hrest (k + 1) f' (by simpa using hk)
      rwa [show idx + (k + 1) = idx + 1 + k from by omega] at this
    · exact fileWindows_occsInv idx f.2 (by simpa using hrest 0 f rfl) h

/-- Every occurrence recorded by the hashing phase is a genuine window of
its file that passed the significance filter. -/
theorem buildWindows_occsInv (fl : List (String × List String)) (ml ms : Nat) :
    OccsInv (occValid fl ml ms) (buildWindows fl ml ms) := by
  refine buildWindowsAux_occsInv ml ms fl 0 [] ?_ (by intro b hb; simp at hb)
  intro k f hk
  simp only [Nat.zero_add]
  unfold linesAt
  rw [List.getD_eq_getElem?_getD, ← List.get?_eq_getElem?, hk]
  rfl

/-! ## Decomposition of membership in the result list -/

/-- Everything the pair loop appends comes from a pair that survived the
same-file skips. -/
theorem mem_processPair {fl : List (String × List String)} {ml : Nat} {inc : Bool}
    {st : List MatchSpan × List MatchSpan} {pr : (Nat × Nat) × (Nat × Nat)}
    {s : MatchSpan} (h : s ∈ (processPair fl ml inc st pr).1) :
    s ∈ st.1 ∨ (s = spanOfPair fl ml pr ∧
      (pr.1.1 = pr.2.1 → ml ≤ Nat.dist pr.1.2 pr.2.2)) := by
  unfold processPair at h
  by_cases h1 : (!inc && pr.1.1 == pr.2.1) = true
  · rw [if_pos h1] at h
    exact Or.inl h
  · rw [if_neg h1] at h
    by_cases h2 : (pr.1.1 == pr.2.1 && decide (Nat.dist pr.1.2 pr.2.2 < ml)) = true
    · rw [if_pos h2] at h
      exact Or.inl h
    · rw [if_neg h2] at h
      by_cases h3 : spanOfPair fl ml pr ∈ st.2
      · rw [if_pos h3] at h
        exact Or.inl h
      · rw [if_neg h3] at h
        simp only [List.mem_append, List.mem_singleton] at h
        rcases h with h | h
        · exact Or.inl h
        · refine Or.inr ⟨h, fun hidx => ?_⟩
          simp only [Bool.and_eq_true, beq_iff_eq, decide_eq_true_eq, not_and] at h2
          have := h2 hidx
          omega

theorem mem_foldl_processPair {fl : List (String × List String)} {ml : Nat}
    {inc : Bool} {s : MatchSpan} :
    ∀ (prs : List ((Nat × Nat) × (Nat × Nat))) (st : List MatchSpan × List MatchSpan),
      s ∈ (prs.foldl (processPair fl ml inc) st).1 →
      s ∈ st.1 ∨ ∃ pr ∈ prs, s = spanOfPair fl ml pr ∧
        (pr.1.1 = pr.2.1 → ml ≤ Nat.dist pr.1.2 pr.2.2) := by
  intro prs
  induction prs with
  | nil => intro st h; exact Or.inl h
  | cons pr prs ih =>
    intro st h
    rw [List.foldl_cons] at h
    rcases ih (processPair fl ml inc st pr) h with h' | ⟨pr', hpr', hs⟩
    · rcases mem_processPair h' with h'' | h''
      · exact Or.inl h''
      · exact Or.inr ⟨pr, List.mem_cons_self _ _, h''⟩
    · exact Or.inr ⟨pr', List.mem_cons_of_mem _ hpr', hs⟩

theorem mem_processBucket {fl : List (String × List String)} {ml mp : Nat}
    {inc : Bool} {st : List MatchSpan × List MatchSpan}
    {b : String × List (Nat × Nat)} {s : MatchSpan}
    (h : s ∈ (processBucket fl ml mp inc st b).1) :
    s ∈ st.1 ∨ ∃ pr ∈ pairsOf (capOccs mp b.2), s = spanOfPair fl ml pr ∧
      (pr.1.1 = pr.2.1 → ml ≤ Nat.dist pr.1.2 pr.2.2) := by
  unfold processBucket at h
  split at h
  · exact Or.inl h
  · exact mem_foldl_processPair _ st h

theorem mem_foldl_processBucket {fl : List (String × List String)} {ml mp : Nat}
    {inc : Bool} {s : MatchSpan} :
    ∀ (bks : List (String × List (Nat × Nat))) (st : List MatchSpan × List MatchSpan),
      s ∈ (bks.foldl (processBucket fl ml mp inc) st).1 →
      s ∈ st.1 ∨ ∃ b ∈ bks, ∃ pr ∈ pairsOf (capOccs mp b.2),
        s = spanOfPair fl ml pr ∧
        (pr.1.1 = pr.2.1 → ml ≤ Nat.dist pr.1.2 pr.2.2) := by
  intro bks
  induction bks with
  | nil => intro st h; exact Or.inl h
  | cons b bks ih =>
    intro st h
    rw [List.foldl_cons] at h
    rcases ih (processBucket fl ml mp inc st b) h with h' | ⟨b', hb', hs⟩
    · rcases mem_processBucket h' with h'' | ⟨pr, hpr, hs⟩
      · exact Or.inl h''
      · exact Or.inr ⟨b, List.mem_cons_self _ _, pr, hpr, hs⟩
    · exact Or.inr ⟨b', List.mem_cons_of_mem _ hb', hs⟩

/-- Every span in the (unsorted) result list arises from a pair of
occurrences of one (capped) digest bucket, and survived the same-file
distance skip. -/
theorem mem_matchesPre {fl : List (String × List String)} {ml ms mp : Nat}
    {inc : Bool} {s : MatchSpan} (h : s ∈ matchesPre fl ml ms mp inc) :
    ∃ b ∈ buildWindows fl ml ms, ∃ pr ∈ pairsOf (capOccs mp b.2),
      s = spanOfPair fl ml pr ∧
      (pr.1.1 = pr.2.1 → ml ≤ Nat.dist pr.1.2 pr.2.2) := by
  unfold matchesPre at h
  rcases mem_foldl_processBucket _ _ h with h' | h'
  · simp at h'
  · exact h'

/-- Membership in the sorted output coincides with membership in the
produced matches. -/
theorem mem_find_duplicates {fl : List (String × List String)} {ml ms mp : Nat}
    {inc : Bool} {s : MatchSpan} :
    s ∈ find_duplicates fl ml ms mp inc ↔ s ∈ matchesPre fl ml ms mp inc :=
  List.mem_insertionSort spanGE

/-- Characterization of the span computed for a pair `(A, B)`: the two
starts move back by a common offset `k`, the two ends move forward by a
common offset `m`, the length is `ml + m + k`, and both expansion loops
stopped for a reason. -/
theorem spanOfPair_spec (fl : List (String × List String)) (ml : Nat)
    (pr : (Nat × Nat) × (Nat × Nat)) :
    ∃ k m, k ≤ pr.1.2 ∧ k ≤ pr.2.2 ∧
      spanOfPair fl ml pr = ⟨ml + m + k, pr.1.1, pr.1.2 - k, pr.2.1, pr.2.2 - k⟩ ∧
      (0 < pr.1.2 - k → 0 < pr.2.2 - k →
        lineEq (linesAt fl pr.1.1) (pr.1.2 - k - 1)
          (linesAt fl pr.2.1) (pr.2.2 - k - 1) = false) ∧
      lineEq (linesAt fl pr.1.1) (pr.1.2 + ml + m)
        (linesAt fl pr.2.1) (pr.2.2 + ml + m) = false := by
  obtain ⟨k, hk1, hk2, hback, hbstop⟩ :=
    expandBack_spec (linesAt fl pr.1.1) (linesAt fl pr.2.1) pr.1.2 pr.2.2
  obtain ⟨m, hfwd, hfstop⟩ :=
    expandFwd_spec (linesAt fl pr.1.1) (linesAt fl pr.2.1) (pr.1.2 + ml) (pr.2.2 + ml)
  refine ⟨k, m, hk1, hk2, ?_, hbstop, ?_⟩
  · unfold spanOfPair
    dsimp only
    rw [hback, hfwd]
    have e : pr.1.2 + ml + m - (pr.1.2 - k) = ml + m + k := by omega
    simp only [e]
  · rwa [show pr.1.2 + ml + m = pr.1.2 + ml + m from rfl] at hfstop

/-- Counting significant lines is monotone under enlarging the window. -/
theorem sigCount_mono (L : List String) {s' s n n' : Nat} (h1 : s' ≤ s)
    (h2 : s + n ≤ s' + n') : sigCount L s n ≤ sigCount L s' n' := by
  unfold sigCount
  have hdrop : L.drop s = (L.drop s').drop (s - s') := by
    rw [List.drop_drop]
    congr 1
    omega
  rw [hdrop]
  have hsplit : (L.drop s').take n' =
      (L.drop s').take (s - s') ++ ((L.drop s').drop (s - s')).take (n' - (s - s')) := by
    rw [← List.take_add]
    congr 1
    omega
  have hstep : (((L.drop s').drop (s - s')).take n).countP (fun l => is_significant l) ≤
      (((L.drop s').drop (s - s')).take (n' - (s - s'))).countP (fun l => is_significant l) := by
    rw [show ((L.drop s').drop (s - s')).take n =
        (((L.drop s').drop (s - s')).take (n' - (s - s'))).take n from by
      rw [List.take_take]
      congr 1
      omega]
    exact List.Sublist.countP_le _ (List.take_sublist _ _)
  rw [hsplit, List.countP_append]
  omega

/-! ## Invariant claims -/

/-- C2: every reported span is maximal: when both starts are positive the
normalized lines immediately preceding the two starts differ, and when both
ends are strictly inside their files the normalized lines immediately
following the two ends differ. -/
theorem C2_maximality (fl : List (String × List String)) (ml ms mp : Nat)
    (inc : Bool) (hml : 0 < ml) (s : MatchSpan)
    (hs : s ∈ find_duplicates fl ml ms mp inc) :
    (0 < s.startA → 0 < s.startB →
      (linesAt fl s.aIdx).getD (s.startA - 1) "" ≠
        (linesAt fl s.bIdx).getD (s.startB - 1) "") ∧
    (s.startA + s.length < (linesAt fl s.aIdx).length →
      s.startB + s.length < (linesAt fl s.bIdx).length →
      (linesAt fl s.aIdx).getD (s.startA + s.length) "" ≠
        (linesAt fl s.bIdx).getD (s.startB + s.length) "") := by
  obtain ⟨b, hb, pr, hpr, hspan, _⟩ := mem_matchesPre (mem_find_duplicates.mp hs)
  have hvA := buildWindows_occsInv fl ml ms b hb pr.1
    ((capOccs_sublist mp b.2).subset (mem_pairsOf hpr).1)
  have hvB := buildWindows_occsInv fl ml ms b hb pr.2
    ((capOccs_sublist mp b.2).subset (mem_pairsOf hpr).2)
  obtain ⟨k, m, hk1, hk2, heq, hbstop, hfstop⟩ := spanOfPair_spec fl ml pr
  subst hspan
  rw [heq]
  dsimp only
  have hlenA := hvA.1
  have hlenB := hvB.1
  constructor
  · intro hA hB
    exact ne_of_lineEq_false (hbstop hA hB) (by omega) (by omega)
  · intro hA hB
    have eA : pr.1.2 - k + (ml + m + k) = pr.1.2 + ml + m := by omega
    have eB : pr.2.2 - k + (ml + m + k) = pr.2.2 + ml + m := by omega
    rw [eA] at hA
    rw [eB] at hB
    rw [eA, eB]
    exact ne_of_lineEq_false hfstop hA hB

theorem C2_maximality_witness :
    (0 < (3 : Nat) → 0 < (3 : Nat) →
      (linesAt corpusC5 0).getD 2 "" ≠ (linesAt corpusC5 1).getD 2 "") ∧
    (3 + 2 < (linesAt corpusC5 0).length → 3 + 2 < (linesAt corpusC5 1).length →
      (linesAt corpusC5 0).getD 5 "" ≠ (linesAt corpusC5 1).getD 5 "") :=
  C2_maximality corpusC5 2 1 20 true (by decide) ⟨2, 0, 3, 1, 3⟩ (by decide)

/-- C3: every reported span is at least `min_lines` long. -/
theorem C3_min_length_invariant (fl : List (String × List String)) (ml ms mp : Nat)
    (inc : Bool) (_hml : 0 < ml) (s : MatchSpan)
    (hs : s ∈ find_duplicates fl ml ms mp inc) : ml ≤ s.length := by
  obtain ⟨b, hb, pr, hpr, hspan, _⟩ := mem_matchesPre (mem_find_duplicates.mp hs)
  obtain ⟨k, m, hk1, hk2, heq, _, _⟩ := spanOfPair_spec fl ml pr
  subst hspan
  rw [heq]
  dsimp only
  omega

theorem C3_min_length_invariant_witness :
    (3 : Nat) ≤ (⟨4, 0, 0, 1, 1⟩ : MatchSpan).length :=
  C3_min_length_invariant corpusC1 3 2 20 true (by decide) ⟨4, 0, 0, 1, 1⟩ (by decide)

/-- C4: a same-file span keeps its two (post-expansion) starts at least
`min_lines` apart: the skip applied to the seed starts suffices because
backward expansion decrements both starts in lockstep. -/
theorem C4_same_file_distance (fl : List (String × List String)) (ml ms mp : Nat)
    (inc : Bool) (s : MatchSpan) (hs : s ∈ find_duplicates fl ml ms mp inc)
    (hsame : s.aIdx = s.bIdx) : ml ≤ Nat.dist s.startA s.startB := by
  obtain ⟨b, hb, pr, hpr, hspan, hguard⟩ := mem_matchesPre (mem_find_duplicates.mp hs)
  obtain ⟨k, m, hk1, hk2, heq, _, _⟩ := spanOfPair_spec fl ml pr
  subst hspan
  rw [heq] at hsame ⊢
  dsimp only at hsame ⊢
  have hd := hguard hsame
  simp only [Nat.dist] at hd ⊢
  omega

theorem C4_same_file_distance_witness :
    (2 : Nat) ≤ Nat.dist (⟨3, 0, 0, 0, 2⟩ : MatchSpan).startA
      (⟨3, 0, 0, 0, 2⟩ : MatchSpan).startB :=
  C4_same_file_distance corpusRep 2 1 20 true ⟨3, 0, 0, 0, 2⟩ (by decide) rfl

/-- C8: every reported span is oriented: its first occurrence precedes its
second in `(file-index, start)` lexicographic order. -/
theorem C8_oriented (fl : List (String × List String)) (ml ms mp : Nat)
    (inc : Bool) (s : MatchSpan) (hs : s ∈ find_duplicates fl ml ms mp inc) :
    s.aIdx < s.bIdx ∨ (s.aIdx = s.bIdx ∧ s.startA < s.startB) := by
  obtain ⟨b, hb, pr, hpr, hspan, _⟩ := mem_matchesPre (mem_find_duplicates.mp hs)
  have hsort : List.Pairwise occLt (capOccs mp b.2) :=
    List.Pairwise.sublist (capOccs_sublist mp b.2) (buildWindows_sorted fl ml ms b hb)
  have hlt : occLt pr.1 pr.2 := pairsOf_rel hsort hpr
  obtain ⟨k, m, hk1, hk2, heq, _, _⟩ := spanOfPair_spec fl ml pr
  subst hspan
  rw [heq]
  dsimp only
  unfold occLt at hlt
  omega

theorem C8_oriented_witness :
    (⟨4, 0, 0, 1, 1⟩ : MatchSpan).aIdx < (⟨4, 0, 0, 1, 1⟩ : MatchSpan).bIdx ∨
    ((⟨4, 0, 0, 1, 1⟩ : MatchSpan).aIdx = (⟨4, 0, 0, 1, 1⟩ : MatchSpan).bIdx ∧
      (⟨4, 0, 0, 1, 1⟩ : MatchSpan).startA < (⟨4, 0, 0, 1, 1⟩ : MatchSpan).startB) :=
  C8_oriented corpusC1 3 2 20 true ⟨4, 0, 0, 1, 1⟩ (by decide)

/-- C9: each side of a reported span contains at least `min_significant`
significant lines, because the expanded range contains the seed window,
which passed the significance filter. -/
theorem C9_min_significant (fl : List (String × List String)) (ml ms mp : Nat)
    (inc : Bool) (s : MatchSpan) (hs : s ∈ find_duplicates fl ml ms mp inc) :
    ms ≤ sigCount (linesAt fl s.aIdx) s.startA s.length ∧
    ms ≤ sigCount (linesAt fl s.bIdx) s.startB s.length := by
  obtain ⟨b, hb, pr, hpr, hspan, _⟩ := mem_matchesPre (mem_find_duplicates.mp hs)
  have hvA := buildWindows_occsInv fl ml ms b hb pr.1
    ((capOccs_sublist mp b.2).subset (mem_pairsOf hpr).1)
  have hvB := buildWindows_occsInv fl ml ms b hb pr.2
    ((capOccs_sublist mp b.2).subset (mem_pairsOf hpr).2)
  obtain ⟨k, m, hk1, hk2, heq, _, _⟩ := spanOfPair_spec fl ml pr
  subst hspan
  rw [heq]
  dsimp only
  constructor
  · exact le_trans hvA.2 (sigCount_mono _ (by omega) (by omega))
  · exact le_trans hvB.2 (sigCount_mono _ (by omega) (by omega))

theorem C9_min_significant_witness :
    (2 : Nat) ≤ sigCount (linesAt corpusC1 0) 0 4 ∧
    (2 : Nat) ≤ sigCount (linesAt corpusC1 1) 1 4 :=
  C9_min_significant corpusC1 3 2 20 true ⟨4, 0, 0, 1, 1⟩ (by decide)

/-! ## The result depends only on the ordered line contents -/

theorem linesAt_congr {fl1 fl2 : List (String × List String)}
    (h : fl1.map Prod.snd = fl2.map Prod.snd) : ∀ i, linesAt fl1 i = linesAt fl2 i := by
  induction fl1 generalizing fl2 with
  | nil =>
    cases fl2 with
    | nil => intro i; rfl
    | cons g gs => simp at h
  | cons f fs ih =>
    cases fl2 with
    | nil => simp at h
    | cons g gs =>
      simp only [List.map_cons, List.cons.injEq] at h
      intro i
      cases i with
      | zero =>
        unfold linesAt
        simp only [List.getD_cons_zero]
        exact h.1
      | succ n =>
        unfold linesAt
        simp only [List.getD_cons_succ]
        exact ih h.2 n

theorem buildWindowsAux_congr (ml ms : Nat) :
    ∀ (r1 r2 : List (String × List String)) (idx : Nat)
      (bks : List (String × List (Nat × Nat))),
      r1.map Prod.snd = r2.map Prod.snd →
      buildWindowsAux ml ms idx r1 bks = buildWindowsAux ml ms idx r2 bks := by
  intro r1
  induction r1 with
  | nil =>
    intro r2 idx bks h
    cases r2 with
    | nil => rfl
    | cons g gs => simp at h
  | cons f fs ih =>
    intro r2 idx bks h
    cases r2 with
    | nil => simp at h
    | cons g gs =>
      simp only [List.map_cons, List.cons.injEq] at h
      show buildWindowsAux ml ms (idx + 1) fs (fileWindows bks idx f.2 ml ms) = _
      rw [h.1]
      exact ih gs (idx + 1) _ h.2

theorem buildWindows_congr {fl1 fl2 : List (String × List String)} (ml ms : Nat)
    (h : fl1.map Prod.snd = fl2.map Prod.snd) :
    buildWindows fl1 ml ms = buildWindows fl2 ml ms :=
  buildWindowsAux_congr ml ms fl1 fl2 0 [] h

theorem spanOfPair_congr {fl1 fl2 : List (String × List String)} (ml : Nat)
    (h : fl1.map Prod.snd = fl2.map Prod.snd) (pr : (Nat × Nat) × (Nat × Nat)) :
    spanOfPair fl1 ml pr = spanOfPair fl2 ml pr := by
  unfold spanOfPair
  rw [linesAt_congr h pr.1.1, linesAt_congr h pr.2.1]

theorem processPair_congr {fl1 fl2 : List (String × List String)} (ml : Nat)
    (inc : Bool) (h : fl1.map Prod.snd = fl2.map Prod.snd)
    (st : List MatchSpan × List MatchSpan) (pr : (Nat × Nat) × (Nat × Nat)) :
    processPair fl1 ml inc st pr = processPair fl2 ml inc st pr := by
  unfold processPair
  rw [spanOfPair_congr ml h pr]

theorem processBucket_congr {fl1 fl2 : List (String × List String)} (ml mp : Nat)
    (inc : Bool) (h : fl1.map Prod.snd = fl2.map Prod.snd)
    (st : List MatchSpan × List MatchSpan) (b : String × List (Nat × Nat)) :
    processBucket fl1 ml mp inc st b = processBucket fl2 ml mp inc st b := by
  unfold processBucket
  split
  · rfl
  · exact List.foldl_ext (processPair fl1 ml inc) (processPair fl2 ml inc) st
      (fun st' pr _ => processPair_congr ml inc h st' pr)

theorem matchesPre_congr {fl1 fl2 : List (String × List String)} (ml ms mp : Nat)
    (inc : Bool) (h : fl1.map Prod.snd = fl2.map Prod.snd) :
    matchesPre fl1 ml ms mp inc = matchesPre fl2 ml ms mp inc := by
  unfold matchesPre
  rw [buildWindows_congr ml ms h]
  rw [List.foldl_ext (processBucket fl1 ml mp inc) (processBucket fl2 ml mp inc) _
    (fun st b _ => processBucket_congr ml mp inc h st b)]

/-- C7: `find_duplicates` is a pure function of the ordered sequence of
per-file line contents and the four parameters: two corpora with the same
files in the same order with the same line contents (paths may even differ)
produce identical span sequences, element for element. -/
theorem C7_deterministic (fl1 fl2 : List (String × List String)) (ml ms mp : Nat)
    (inc : Bool) (h : fl1.map Prod.snd = fl2.map Prod.snd) :
    find_duplicates fl1 ml ms mp inc = find_duplicates fl2 ml ms mp inc := by
  unfold find_duplicates
  rw [matchesPre_congr ml ms mp inc h]

theorem C7_deterministic_witness :
    find_duplicates [("X", ["a", "b", "a", "b"])] 2 1 20 true =
      find_duplicates [("Y", ["a", "b", "a", "b"])] 2 1 20 true :=
  C7_deterministic [("X", ["a", "b", "a", "b"])] [("Y", ["a", "b", "a", "b"])]
    2 1 20 true rfl

/-! ## Scenario claims -/

/-- C1: on the two-file corpus where file A has the four lines
`["fn f() \x7b", "  let x = 1;", "  return x;", "\x7d"]` and file B has the same
four lines preceded by one blank line, `find_duplicates` with
`min_lines = 3`, `min_significant = 2`, any `include_same_file` and any
`max_pairs_per_hash ≥ 2` returns exactly one span, of length 4, with file A
at start line 0 and file B at start line 1. -/
theorem C1_two_file_scenario (mp : Nat) (hmp : 2 ≤ mp) (inc : Bool) :
    find_duplicates corpusC1 3 2 mp inc = [⟨4, 0, 0, 1, 1⟩] := by
  have h2 : ∀ b ∈ buildWindows corpusC1 3 2, b.2.length ≤ 2 := by
    intro b hb
    have hw : buildWindows corpusC1 3 2 =
        [("fn f() \x7b\nlet x = 1;\nreturn x;", [(0, 0), (1, 1)]),
         ("let x = 1;\nreturn x;\n\x7d", [(0, 1), (1, 2)]),
         ("\nfn f() \x7b\nlet x = 1;", [(1, 0)])] := rfl
    rw [hw] at hb
    simp only [List.mem_cons, List.not_mem_nil, or_false] at hb
    rcases hb with h | h | h <;> subst h <;> simp
  have hmp' : ∀ b ∈ buildWindows corpusC1 3 2, b.2.length ≤ mp :=
    fun b hb => le_trans (h2 b hb) hmp
  unfold find_duplicates
  rw [matchesPre_cap_congr corpusC1 3 2 mp 2 inc hmp' h2]
  cases inc <;> rfl

theorem C1_two_file_scenario_witness :
    find_duplicates corpusC1 3 2 20 true = [⟨4, 0, 0, 1, 1⟩] :=
  C1_two_file_scenario 20 (by decide) true

/-- C6: capping keeps only the first `max_pairs_per_hash` occurrences of an
over-full bucket, and on a corpus with a single digest bucket of five
occurrences, `max_pairs_per_hash = 1` yields zero spans. -/
theorem C6_cap_scenario :
    (∀ (occs : List (Nat × Nat)) (mp : Nat), mp < occs.length →
      capOccs mp occs = occs.take mp) ∧
    (buildWindows corpusRep 1 1).map (fun b => b.2) =
      [[(0, 0), (0, 1), (0, 2), (0, 3), (0, 4)]] ∧
    find_duplicates corpusRep 1 1 1 true = [] :=
  ⟨fun _ _ h => capOccs_eq_take h, rfl, rfl⟩

theorem C6_cap_scenario_witness :
    capOccs 1 [(0, 0), (0, 1), (0, 2), (0, 3), (0, 4)] = [(0, 0)] ∧
    find_duplicates corpusRep 1 1 1 true = [] :=
  ⟨C6_cap_scenario.1 [(0, 0), (0, 1), (0, 2), (0, 3), (0, 4)] 1 (by decide),
   C6_cap_scenario.2.2⟩

/-- C10: with `include_same_file = true`, a file made of one significant
line repeated five times produces a same-file span whose two line ranges
overlap: the skip condition bounds only the distance of the seed starts,
not of the expanded ranges. -/
theorem C10_same_file_overlap :
    ∃ s ∈ find_duplicates corpusRep 2 1 20 true,
      s.aIdx = s.bIdx ∧ s.startA < s.startB ∧ s.startB < s.startA + s.length :=
  ⟨⟨3, 0, 0, 0, 2⟩, by decide, rfl, by decide, by decide⟩

/-- C5 counterexample: the claim says equal-length spans keep the order in
which they were produced, but `matches.sort(reverse=True)` sorts by the
whole tuple: on `corpusC5` the spans are produced in the order
`[(2,0,0,1,0), (2,0,3,1,3)]` and reported in the opposite order. -/
theorem C5_counterexample :
    matchesPre corpusC5 2 1 20 true =
      [⟨2, 0, 0, 1, 0⟩, ⟨2, 0, 3, 1, 3⟩] ∧
    find_duplicates corpusC5 2 1 20 true =
      [⟨2, 0, 3, 1, 3⟩, ⟨2, 0, 0, 1, 0⟩] ∧
    (⟨2, 0, 0, 1, 0⟩ : MatchSpan).length = (⟨2, 0, 3, 1, 3⟩ : MatchSpan).length ∧
    (⟨2, 0, 0, 1, 0⟩ : MatchSpan) ≠ ⟨2, 0, 3, 1, 3⟩ :=
  ⟨rfl, rfl, rfl, by decide⟩

/-- C5 amended: the result of `find_duplicates` is a permutation of the
produced matches sorted in descending lexicographic order of the whole
tuple `(length, a_idx, start_a, b_idx, start_b)`; in particular lengths are
descending, but equal-length ties are ordered by the remaining tuple
fields, not by production order. -/
theorem C5_sorted_desc (fl : List (String × List String)) (ml ms mp : Nat)
    (inc : Bool) :
    (find_duplicates fl ml ms mp inc).Perm (matchesPre fl ml ms mp inc) ∧
    List.Pairwise spanGE (find_duplicates fl ml ms mp inc) ∧
    List.Pairwise (fun s t => t.length ≤ s.length) (find_duplicates fl ml ms mp inc) :=
  ⟨List.perm_insertionSort _ _, List.sorted_insertionSort spanGE _,
   (List.sorted_insertionSort spanGE _).imp (fun h => by omega)⟩

end FindDups
